import Mathlib

/-!
Verification development for the `oed_fcs` optimal-experimental-design engine.

The Python source is shallowly embedded:
* real (numpy float) arithmetic is modelled by `ℝ` (for numeric claims) or an
  arbitrary `LinearOrderedField` (for structural claims about the design
  constructors, which are polymorphic in the scalar);
* numpy 1-d arrays are `List` values, 2-d arrays are `List (List _)`;
* Python exceptions are modelled by an explicit error type returned in `Except`;
* functions passed around at runtime (the minimizer, the statistical model's
  determinant routine, the uncertainty module's quantile routine) are modelled
  as explicit function arguments.
-/

namespace OedFcs

/-- Errors a constructor or method of the embedded code can raise.
`attributeError` models Python's `AttributeError` (attribute access on `None`);
`notSupported` models the spec's `NotSupportedError`, realized in the source by
Python's built-in `NotImplementedError`. -/
inductive PyError where
  | attributeError : PyError
  | notSupported : PyError
deriving DecidableEq

/-- Python list repetition `l * n` (the list concatenated with itself `n` times),
as used in `np.array(lower_bounds_design.tolist() * number_designs)`. -/
def pyListMul {α : Type} (l : List α) : ℕ → List α
  | 0 => []
  | n + 1 => l ++ pyListMul l n

/-- numpy `v.reshape(n, d)` for a flat vector `v` of length `n * d`: row-major
(C-order) chunking into `n` rows of `d` entries each. -/
def reshape {α : Type} (n d : ℕ) (v : List α) : List (List α) :=
  (List.range n).map (fun i => (v.drop (i * d)).take d)

/-! ## `src/oed/parametric_function_library/aging_model.py` -/

/-- The reference constants of `Aging_Model.__init__` together with the time
grid `t` fixed at construction. -/
structure Aging_Model where
  SoCref : ℝ
  Tref : ℝ
  EOL_C : ℝ
  t_end : ℝ
  t : List ℝ

/-- Default constructor arguments of `Aging_Model.__init__`. -/
noncomputable def Aging_Model.default : Aging_Model :=
  { SoCref := 0.5
    Tref := 296.15
    EOL_C := 0.9
    t_end := 520
    t := [7, 35, 63, 119, 175, 231] }

/-- `Aging_Model.x_ref_cal`. -/
noncomputable def Aging_Model.x_ref_cal (m : Aging_Model) (param : ℝ) : ℝ :=
  (1 - m.EOL_C) / (m.t_end * (24 * 3600)) ^ param

/-- `Aging_Model.d_SoC_cal`; the source reads `param[0]` from a one-element
array. -/
noncomputable def Aging_Model.d_SoC_cal (m : Aging_Model) (SoC : ℝ) (param : List ℝ) : ℝ :=
  (SoC / m.SoCref) ^ (1 / param.getD 0 0)

/-- `Aging_Model.d_T_cal`; the source reads `param[0]` from a one-element
array. -/
noncomputable def Aging_Model.d_T_cal (m : Aging_Model) (T : ℝ) (param : List ℝ) : ℝ :=
  Real.exp (-(param.getD 0 0) * ((1 / T) - (1 / m.Tref)))

/-- `Aging_Model.Calendar_Aging`: the capacity-loss vector over the stored time
grid `t`; `theta[i]` and `x[i]` become `getD i 0`. -/
noncomputable def Aging_Model.Calendar_Aging (m : Aging_Model) (theta x : List ℝ) : List ℝ :=
  m.t.map (fun ti =>
    m.x_ref_cal (theta.getD 2 0)
      * m.d_SoC_cal (x.getD 0 0) [theta.getD 0 0]
      * m.d_T_cal (x.getD 1 0) [theta.getD 1 0]
      * (ti * (24 * 3600)) ^ (theta.getD 2 0))

/-- `Aging_Model.partial_derivative_Calendar_Aging`: the analytic partial
derivative with respect to `theta[index]`; the final `else: pass` branch of the
source returns Python `None`, modelled by `Option.none`. The `index = 2` branch
multiplies the aging vector elementwise with a time-grid-dependent factor, hence
the `zipWith` with `m.t`. -/
noncomputable def Aging_Model.partial_derivative_Calendar_Aging
    (m : Aging_Model) (theta x : List ℝ) (index : ℕ) : Option (List ℝ) :=
  if index = 0 then
    some ((m.Calendar_Aging theta x).map (fun f =>
      -f * Real.log (x.getD 0 0 / m.SoCref) / (theta.getD 0 0) ^ 2))
  else if index = 1 then
    some ((m.Calendar_Aging theta x).map (fun f =>
      -f * ((1 / x.getD 1 0) - (1 / m.Tref))))
  else if index = 2 then
    some (List.zipWith (fun f ti =>
      -f * (Real.log (m.t_end * (24 * 3600)) - Real.log (ti * (24 * 3600))))
      (m.Calendar_Aging theta x) m.t)
  else
    none

/-- `AgingModel.__init__` stores `Aging_Model()` with default arguments. -/
noncomputable def AgingModel_aging_model : Aging_Model := Aging_Model.default

/-- `AgingModel.__call__`. -/
noncomputable def AgingModel_call (theta x : List ℝ) : List ℝ :=
  AgingModel_aging_model.Calendar_Aging theta x

/-- `AgingModel.partial_derivative`. -/
noncomputable def AgingModel_partial_derivative
    (theta x : List ℝ) (parameter_index : ℕ) : Option (List ℝ) :=
  AgingModel_aging_model.partial_derivative_Calendar_Aging theta x parameter_index

/-- `AgingModel.second_partial_derivative` unconditionally raises; the source
writes `raise NotImplementedError`, the capability error the spec's taxonomy
calls `NotSupportedError`. -/
def AgingModel_second_partial_derivative
    (theta x : List ℝ) (parameter1_index parameter2_index : ℕ) : Except PyError (List ℝ) :=
  .error .notSupported

/-! ## Design constructors
`src/src/oed/experiments/experiment_library/d_design.py` and
`src/src/oed/experiments/experiment_library/point_prediction_design.py`.
A `Minimizer` is called as `minimizer(function, lower_bounds, upper_bounds)`
and returns a flat vector. -/

/-- The `Experiment` interface: a constructed design exposing its matrix. -/
structure Experiment (α : Type) where
  experiment : List (List α)

/-- The `Minimizer` interface: objective, lower bounds, upper bounds to
returned flat vector. -/
def Minimizer (α : Type) : Type :=
  (List α → α) → List α → List α → List α

/-- Python attribute access `previous_experiment.experiment` on an optional
value: on `None` it raises `AttributeError`. -/
def getattr_experiment {α : Type} : Option (Experiment α) → Except PyError (List (List α))
  | none => .error .attributeError
  | some e => .ok e.experiment

/-- The design matrix built by `DDesign.__init__` once the previous experiment
has been read: the previous rows concatenated with the reshaped minimizer
result; the objective negates the determinant of the Fisher information matrix
of the previous rows extended by the reshaped candidate vector, and the bounds
are the design bounds replicated `number_designs` times
(`lower_bounds_design.tolist() * number_designs`). -/
def DDesign_design {α : Type} [Neg α]
    (number_designs : ℕ) (lower_bounds_design upper_bounds_design : List α)
    (initial_theta : List α)
    (calculate_determinant_fisher_information_matrix : List α → List (List α) → α)
    (minimizer : Minimizer α) (prev : List (List α)) : List (List α) :=
  prev ++ reshape number_designs lower_bounds_design.length
    (minimizer
      (fun x => -(calculate_determinant_fisher_information_matrix initial_theta
        (prev ++ reshape number_designs lower_bounds_design.length x)))
      (pyListMul lower_bounds_design number_designs)
      (pyListMul upper_bounds_design number_designs))

/-- `DDesign.__init__`: reads `previous_experiment.experiment` (raising
`AttributeError` when `previous_experiment` is the default `None`) and stores
the design matrix. -/
def DDesign_init {α : Type} [Neg α]
    (number_designs : ℕ) (lower_bounds_design upper_bounds_design : List α)
    (initial_theta : List α)
    (calculate_determinant_fisher_information_matrix : List α → List (List α) → α)
    (minimizer : Minimizer α)
    (previous_experiment : Option (Experiment α)) : Except PyError (List (List α)) :=
  (getattr_experiment previous_experiment).map
    (fun prev => DDesign_design number_designs lower_bounds_design upper_bounds_design
      initial_theta calculate_determinant_fisher_information_matrix minimizer prev)

/-- The objective lambda of `PointPredictionDesign.__init__`:
`-np.sum(q(x, alpha) - q(x, 1 - alpha))`, with the elementwise array
difference modelled by `zipWith`. -/
def PointPredictionDesign_objective {α : Type} [LinearOrderedField α]
    (calculate_quantile : List α → α → List α) (alpha : α) (x : List α) : α :=
  -(List.zipWith (fun a b => a - b)
      (calculate_quantile x alpha) (calculate_quantile x (1 - alpha))).sum

/-- `PointPredictionDesign.__init__`: minimizes the negated predictive spread
over one point and reshapes the result to a `1 × len(lower_bounds_design)`
matrix. -/
def PointPredictionDesign_init {α : Type} [LinearOrderedField α]
    (lower_bounds_design upper_bounds_design : List α)
    (minimizer : Minimizer α)
    (calculate_quantile : List α → α → List α) (alpha : α) : List (List α) :=
  reshape 1 lower_bounds_design.length
    (minimizer (PointPredictionDesign_objective calculate_quantile alpha)
      lower_bounds_design upper_bounds_design)

/-- Follows the spec's words (refinement reference for claim C5): the
predictive spread at `x` is `quantile(x, alpha) - quantile(x, 1 - alpha)`,
summed over output components. -/
def spec_predictive_spread {α : Type} [LinearOrderedField α]
    (calculate_quantile : List α → α → List α) (alpha : α) (x : List α) : α :=
  (List.zipWith (fun a b => a - b)
    (calculate_quantile x alpha) (calculate_quantile x (1 - alpha))).sum

/-! ## Spec-modelled statistical-model and metric code
The Gaussian-noise statistical model and the metric library are code of this
repository that is not under `src/`; they are modelled from the spec. -/

/-- Modelled from the spec: `GaussianNoiseModel.calculate_fisher_information_matrix`
is not in `src/`; per the spec it is `(1/sigma^2) * sum over design points of
(Jacobian_row^T * Jacobian_row)` with
`Jacobian_row[i] = ∂f(theta,x)/∂theta_i` at the design point. The Jacobian row
is an explicit argument `pd theta x : Fin k → ℝ`. -/
noncomputable def calculate_fisher_information_matrix {k : ℕ}
    (sigma : ℝ) (pd : List ℝ → List ℝ → Fin k → ℝ)
    (theta : List ℝ) (x0 : List (List ℝ)) : Matrix (Fin k) (Fin k) ℝ :=
  (1 / sigma ^ 2) •
    (x0.map (fun p => Matrix.vecMulVec (pd theta p) (pd theta p))).sum

/-- Modelled from the spec:
`GaussianNoiseModel.calculate_determinant_fisher_information_matrix` is not in
`src/`; it is the determinant of the Fisher information matrix. -/
noncomputable def calculate_determinant_fisher_information_matrix {k : ℕ}
    (sigma : ℝ) (pd : List ℝ → List ℝ → Fin k → ℝ)
    (theta : List ℝ) (x0 : List (List ℝ)) : ℝ :=
  (calculate_fisher_information_matrix sigma pd theta x0).det

/-- Modelled from the spec: `StdParameterEstimations.calculate` is not in
`src/` (only its test is); per the spec and its test it returns the
Bessel-corrected sample standard deviation of the estimation samples. -/
noncomputable def StdParameterEstimations_calculate (estimations_of_parameter : List ℝ) : ℝ :=
  Real.sqrt
    (((estimations_of_parameter.map (fun v =>
        (v - estimations_of_parameter.sum / estimations_of_parameter.length) ^ 2)).sum)
      / (estimations_of_parameter.length - 1))

end OedFcs

namespace OedFcs

/-! ## List-level helper lemmas -/

theorem pyListMul_eq_join_replicate {α : Type} (l : List α) (n : ℕ) :
    pyListMul l n = (List.replicate n l).flatten := by
  induction n with
  | zero => rfl
  | succ k ih => simp [pyListMul, List.replicate_succ, ih]

theorem length_pyListMul {α : Type} (l : List α) (n : ℕ) :
    (pyListMul l n).length = n * l.length := by
  induction n with
  | zero => simp [pyListMul]
  | succ k ih => simp [pyListMul, ih, Nat.succ_mul, Nat.add_comm]

theorem length_reshape {α : Type} (n d : ℕ) (v : List α) :
    (reshape n d v).length = n := by
  simp [reshape]

theorem reshape_one {α : Type} (d : ℕ) (v : List α) :
    reshape 1 d v = [v.take d] := by
  simp [reshape, List.range_succ]

theorem length_of_mem_reshape {α : Type} {n d : ℕ} {v : List α} (hv : v.length = n * d)
    {r : List α} (hr : r ∈ reshape n d v) : r.length = d := by
  simp only [reshape, List.mem_map, List.mem_range] at hr
  obtain ⟨i, hi, rfl⟩ := hr
  have hle : (i + 1) * d ≤ n * d := Nat.mul_le_mul_right d hi
  have heq : (i + 1) * d = i * d + d := by ring
  have hd : d ≤ v.length - i * d := by
    rw [hv]
    omega
  rw [List.length_take, List.length_drop, Nat.min_eq_left hd]

theorem getD_reshape {α : Type} {n d : ℕ} (v : List α) (x : α) {i j : ℕ}
    (hi : i < n) (hj : j < d) (hv : v.length = n * d) :
    ((reshape n d v).getD i []).getD j x = v.getD (i * d + j) x := by
  have hidx : i * d + j < v.length := by
    rw [hv]
    calc i * d + j < i * d + d := by omega
    _ = (i + 1) * d := by ring
    _ ≤ n * d := Nat.mul_le_mul_right d hi
  have h1 : (reshape n d v).getD i [] = (v.drop (i * d)).take d := by
    rw [List.getD_eq_getElem _ _ (by simpa [length_reshape] using hi)]
    simp [reshape]
  rw [h1]
  have hj' : j < ((v.drop (i * d)).take d).length := by
    simp [List.length_take, List.length_drop]
    omega
  rw [List.getD_eq_getElem _ _ hj', List.getD_eq_getElem _ _ hidx]
  simp [List.getElem_take, List.getElem_drop]

/-! ## Claim theorems: error behaviour and structural claims -/

/-- C7: for every theta, x and pair of parameter indices,
`AgingModel.second_partial_derivative` raises the not-supported error (the
source's `raise NotImplementedError`, the spec's `NotSupportedError`). -/
theorem second_partial_derivative_raises_not_supported :
    ∀ (theta x : List ℝ) (i j : ℕ),
      AgingModel_second_partial_derivative theta x i j
        = Except.error PyError.notSupported :=
  fun _ _ _ _ => rfl

/-- C10: constructing `DDesign` with `previous_experiment` left at its default
`None` fails with `AttributeError`: the constructor unconditionally reads
`previous_experiment.experiment`. -/
theorem ddesign_none_previous_experiment_fails {α : Type} [LinearOrderedField α]
    (number_designs : ℕ) (lb ub theta : List α)
    (calcdet : List α → List (List α) → α) (minimizer : Minimizer α) :
    DDesign_init number_designs lb ub theta calcdet minimizer none
      = Except.error PyError.attributeError :=
  rfl

/-- C9: `Aging_Model.Calendar_Aging` (hence `AgingModel.__call__`) depends only
on `x[0]`, `x[1]` and the time grid fixed at construction: inputs agreeing on
their first two components give identical results, and the output always has
one entry per time-grid point. -/
theorem calendar_aging_depends_only_on_first_two (m : Aging_Model) (theta x y : List ℝ)
    (h0 : x.getD 0 0 = y.getD 0 0) (h1 : x.getD 1 0 = y.getD 1 0) :
    m.Calendar_Aging theta x = m.Calendar_Aging theta y
      ∧ (m.Calendar_Aging theta x).length = m.t.length
      ∧ AgingModel_call theta x = AgingModel_call theta y := by
  refine ⟨?_, by simp [Aging_Model.Calendar_Aging], ?_⟩
  · simp only [Aging_Model.Calendar_Aging, h0, h1]
  · simp only [AgingModel_call, AgingModel_aging_model, Aging_Model.Calendar_Aging, h0, h1]

/-- Witness for C9 at concrete inputs differing in the third component. -/
theorem calendar_aging_depends_only_on_first_two_witness :
    ([(1 : ℝ), 2, 3].getD 0 0 = [(1 : ℝ), 2, 4].getD 0 0)
      ∧ ([(1 : ℝ), 2, 3].getD 1 0 = [(1 : ℝ), 2, 4].getD 1 0)
      ∧ Aging_Model.default.Calendar_Aging [1, 1, 1] [1, 2, 3]
          = Aging_Model.default.Calendar_Aging [1, 1, 1] [1, 2, 4]
      ∧ AgingModel_call [1, 1, 1] [1, 2, 3] = AgingModel_call [1, 1, 1] [1, 2, 4] :=
  ⟨rfl, rfl,
    (calendar_aging_depends_only_on_first_two Aging_Model.default [1, 1, 1]
      [1, 2, 3] [1, 2, 4] rfl rfl).1,
    (calendar_aging_depends_only_on_first_two Aging_Model.default [1, 1, 1]
      [1, 2, 3] [1, 2, 4] rfl rfl).2.2⟩

/-- C5: the objective `PointPredictionDesign` hands to the Minimizer is, at
every point `x`, the negation of the predictive spread
`quantile(x, alpha) - quantile(x, 1 - alpha)` summed over output components. -/
theorem point_prediction_objective_negates_spread {α : Type} [LinearOrderedField α]
    (lb ub : List α) (minimizer : Minimizer α)
    (q : List α → α → List α) (alpha : α) :
    (∀ x, PointPredictionDesign_objective q alpha x = -(spec_predictive_spread q alpha x))
      ∧ PointPredictionDesign_init lb ub minimizer q alpha
          = reshape 1 lb.length
              (minimizer (PointPredictionDesign_objective q alpha) lb ub) :=
  ⟨fun _ => rfl, rfl⟩

/-- C2: with a non-`None` previous experiment, `DDesign` stores the previous
rows followed by the reshaped minimizer result, the objective being the
negated Fisher-information determinant at `initial_theta` of the previous
experiment extended with the reshaped candidate; the reshaped block is an
`n × d` matrix whenever the returned vector has length `n * d`. -/
theorem ddesign_appends_reshaped_optimum {α : Type} [LinearOrderedField α]
    (n : ℕ) (hn : 1 ≤ n) (lb ub theta : List α)
    (calcdet : List α → List (List α) → α) (minimizer : Minimizer α)
    (e : Experiment α) :
    DDesign_init n lb ub theta calcdet minimizer (some e)
        = Except.ok (e.experiment ++ reshape n lb.length
            (minimizer
              (fun x => -(calcdet theta (e.experiment ++ reshape n lb.length x)))
              (pyListMul lb n) (pyListMul ub n)))
      ∧ (DDesign_design n lb ub theta calcdet minimizer e.experiment).take
            e.experiment.length = e.experiment
      ∧ ∀ v : List α, v.length = n * lb.length →
          (reshape n lb.length v).length = n
            ∧ ∀ r ∈ reshape n lb.length v, r.length = lb.length := by
  refine ⟨rfl, ?_, ?_⟩
  · simp [DDesign_design, List.take_left]
  · intro v hv
    exact ⟨length_reshape _ _ _, fun r hr => length_of_mem_reshape hv hr⟩

/-- Witness for C2 with a one-point one-dimensional design over `ℚ` and a
minimizer that returns its lower bounds. -/
theorem ddesign_appends_reshaped_optimum_witness :
    (1 ≤ 1)
      ∧ DDesign_init 1 [(0 : ℚ)] [1] [] (fun _ _ => 0) (fun _ l _ => l)
          (some ⟨[[5]]⟩) = Except.ok [[5], [0]] := by
  refine ⟨le_refl 1, ?_⟩
  rw [(ddesign_appends_reshaped_optimum 1 (le_refl 1) [(0 : ℚ)] [1] []
    (fun _ _ => 0) (fun _ l _ => l) ⟨[[5]]⟩).1]
  rfl

/-- C4: the flat optimization vector has length `n * d`, its bound vectors are
the `d`-dimensional design bounds replicated `n` times in sequence, and
reshaping is row-major (`entry (i, j)` of the matrix is entry `i * d + j` of
the flat vector); `DDesign` optimizes `n = number_designs` points and
`PointPredictionDesign` optimizes `n = 1` point this way. -/
theorem design_flat_vector_bounds_reshape {α : Type} [LinearOrderedField α]
    (n : ℕ) (lb ub theta : List α)
    (calcdet : List α → List (List α) → α) (minimizer : Minimizer α)
    (e : Experiment α) (q : List α → α → List α) (alpha : α) :
    pyListMul lb n = (List.replicate n lb).flatten
      ∧ (pyListMul lb n).length = n * lb.length
      ∧ (pyListMul ub n).length = n * ub.length
      ∧ (∀ (v : List α) (i j : ℕ), i < n → j < lb.length → v.length = n * lb.length →
          ((reshape n lb.length v).getD i []).getD j 0 = v.getD (i * lb.length + j) 0)
      ∧ DDesign_design n lb ub theta calcdet minimizer e.experiment
          = e.experiment ++ reshape n lb.length
              (minimizer
                (fun x => -(calcdet theta (e.experiment ++ reshape n lb.length x)))
                (pyListMul lb n) (pyListMul ub n))
      ∧ PointPredictionDesign_init lb ub minimizer q alpha
          = reshape 1 lb.length
              (minimizer (PointPredictionDesign_objective q alpha) lb ub) :=
  ⟨pyListMul_eq_join_replicate lb n, length_pyListMul lb n, length_pyListMul ub n,
    fun v _ _ hi hj hv => getD_reshape v 0 hi hj hv, rfl, rfl⟩

/-- Witness for C4 over `ℚ` with `n = 2`, `d = 2`. -/
theorem design_flat_vector_bounds_reshape_witness :
    pyListMul [(0 : ℚ), 1] 2 = (List.replicate 2 [(0 : ℚ), 1]).flatten
      ∧ (pyListMul [(0 : ℚ), 1] 2).length = 2 * 2
      ∧ ((reshape 2 2 [(10 : ℚ), 11, 12, 13]).getD 1 []).getD 0 0 = 12 := by
  have h := design_flat_vector_bounds_reshape (α := ℚ) 2 [0, 1] [2, 3] []
    (fun _ _ => 0) (fun _ l _ => l) ⟨[]⟩ (fun _ _ => []) 0
  refine ⟨h.1, by simpa using h.2.1, ?_⟩
  have h4 := h.2.2.2.1 [10, 11, 12, 13] 1 0 (by norm_num) (by norm_num) (by norm_num)
  simpa using h4

/-- C6: `PointPredictionDesign` produces exactly one row of dimension
`len(lower_bounds_design)`, and if the minimizer honors the bounds then that
row lies within `[lower_bounds_design, upper_bounds_design]` componentwise. -/
theorem point_prediction_single_row_within_bounds {α : Type} [LinearOrderedField α]
    (lb ub : List α) (minimizer : Minimizer α)
    (q : List α → α → List α) (alpha : α)
    (hlen : (minimizer (PointPredictionDesign_objective q alpha) lb ub).length
      = lb.length)
    (hbnd : ∀ i : ℕ, i < lb.length →
      lb.getD i 0 ≤ (minimizer (PointPredictionDesign_objective q alpha) lb ub).getD i 0
        ∧ (minimizer (PointPredictionDesign_objective q alpha) lb ub).getD i 0
            ≤ ub.getD i 0) :
    (PointPredictionDesign_init lb ub minimizer q alpha).length = 1
      ∧ ∀ r ∈ PointPredictionDesign_init lb ub minimizer q alpha,
          r.length = lb.length
            ∧ ∀ i : ℕ, i < lb.length →
                lb.getD i 0 ≤ r.getD i 0 ∧ r.getD i 0 ≤ ub.getD i 0 := by
  have hinit : PointPredictionDesign_init lb ub minimizer q alpha
      = [minimizer (PointPredictionDesign_objective q alpha) lb ub] := by
    rw [PointPredictionDesign_init, reshape_one, ← hlen, List.take_length]
  rw [hinit]
  refine ⟨rfl, ?_⟩
  intro r hr
  rw [List.mem_singleton] at hr
  subst hr
  exact ⟨hlen, hbnd⟩

/-- Witness for C6 over `ℚ` with a minimizer returning its lower bounds. -/
theorem point_prediction_single_row_within_bounds_witness :
    (((fun (_ : List ℚ → ℚ) (l _ : List ℚ) => l)
        (PointPredictionDesign_objective (fun _ _ => []) 0) [0, 1] [2, 3]).length
      = ([(0 : ℚ), 1]).length)
      ∧ (PointPredictionDesign_init [(0 : ℚ), 1] [2, 3] (fun _ l _ => l)
          (fun _ _ => []) 0).length = 1
      ∧ ∀ r ∈ PointPredictionDesign_init [(0 : ℚ), 1] [2, 3] (fun _ l _ => l)
          (fun _ _ => []) 0,
          r.length = ([(0 : ℚ), 1]).length
            ∧ ∀ i : ℕ, i < ([(0 : ℚ), 1]).length →
                ([(0 : ℚ), 1]).getD i 0 ≤ r.getD i 0
                  ∧ r.getD i 0 ≤ ([(2 : ℚ), 3]).getD i 0 := by
  have h := point_prediction_single_row_within_bounds [(0 : ℚ), 1] [2, 3]
    (fun _ l _ => l) (fun _ _ => []) 0 rfl (by decide)
  exact ⟨rfl, h.1, h.2⟩

/-- C8: the sample standard deviation of `[0,0,0,2,2,2]` computed by
`StdParameterEstimations.calculate` equals `sqrt(6/5)` within `1e-5`
(Bessel-corrected `n-1` denominator). -/
theorem std_parameter_estimations_sample_std :
    |StdParameterEstimations_calculate [0, 0, 0, 2, 2, 2] - Real.sqrt (6 / 5)| ≤ 1e-5 := by
  have h : StdParameterEstimations_calculate [0, 0, 0, 2, 2, 2] = Real.sqrt (6 / 5) := by
    unfold StdParameterEstimations_calculate
    norm_num
  rw [h, sub_self, abs_zero]
  norm_num

end OedFcs

namespace OedFcs

/-! ## Claim C1: correctness of the analytic partial derivatives -/

theorem hasDerivAt_calendar_theta0 (m : Aging_Model) (θ1 θ2 SoC T ti θ0 : ℝ)
    (h0 : θ0 ≠ 0) (hb : 0 < SoC / m.SoCref) :
    HasDerivAt
      (fun a => m.x_ref_cal θ2 * m.d_SoC_cal SoC [a] * m.d_T_cal T [θ1]
        * (ti * (24 * 3600)) ^ θ2)
      (-(m.x_ref_cal θ2 * m.d_SoC_cal SoC [θ0] * m.d_T_cal T [θ1]
        * (ti * (24 * 3600)) ^ θ2) * Real.log (SoC / m.SoCref) / θ0 ^ 2) θ0 := by
  have hrw : (fun a => m.x_ref_cal θ2 * m.d_SoC_cal SoC [a] * m.d_T_cal T [θ1]
      * (ti * (24 * 3600)) ^ θ2)
      = fun a => (m.x_ref_cal θ2 * m.d_T_cal T [θ1] * (ti * (24 * 3600)) ^ θ2)
          * Real.exp (Real.log (SoC / m.SoCref) * a⁻¹) := by
    funext a
    rw [Aging_Model.d_SoC_cal, show ([a] : List ℝ).getD 0 0 = a from rfl,
      Real.rpow_def_of_pos hb, one_div]
    ring
  rw [hrw]
  have h1 : HasDerivAt (fun a : ℝ => Real.log (SoC / m.SoCref) * a⁻¹)
      (Real.log (SoC / m.SoCref) * -(θ0 ^ 2)⁻¹) θ0 :=
    (hasDerivAt_inv h0).const_mul _
  have h2 := (h1.exp).const_mul
    (m.x_ref_cal θ2 * m.d_T_cal T [θ1] * (ti * (24 * 3600)) ^ θ2)
  have hval : -(m.x_ref_cal θ2 * m.d_SoC_cal SoC [θ0] * m.d_T_cal T [θ1]
      * (ti * (24 * 3600)) ^ θ2) * Real.log (SoC / m.SoCref) / θ0 ^ 2
      = (m.x_ref_cal θ2 * m.d_T_cal T [θ1] * (ti * (24 * 3600)) ^ θ2)
          * (Real.exp (Real.log (SoC / m.SoCref) * θ0⁻¹)
            * (Real.log (SoC / m.SoCref) * -(θ0 ^ 2)⁻¹)) := by
    rw [Aging_Model.d_SoC_cal, show ([θ0] : List ℝ).getD 0 0 = θ0 from rfl,
      Real.rpow_def_of_pos hb, one_div]
    ring
  rw [hval]
  exact h2

theorem hasDerivAt_calendar_theta1 (m : Aging_Model) (θ0 θ2 SoC T ti θ1 : ℝ) :
    HasDerivAt
      (fun a => m.x_ref_cal θ2 * m.d_SoC_cal SoC [θ0] * m.d_T_cal T [a]
        * (ti * (24 * 3600)) ^ θ2)
      (-(m.x_ref_cal θ2 * m.d_SoC_cal SoC [θ0] * m.d_T_cal T [θ1]
        * (ti * (24 * 3600)) ^ θ2) * ((1 / T) - (1 / m.Tref))) θ1 := by
  have hrw : (fun a => m.x_ref_cal θ2 * m.d_SoC_cal SoC [θ0] * m.d_T_cal T [a]
      * (ti * (24 * 3600)) ^ θ2)
      = fun a => (m.x_ref_cal θ2 * m.d_SoC_cal SoC [θ0] * (ti * (24 * 3600)) ^ θ2)
          * Real.exp (-a * ((1 / T) - (1 / m.Tref))) := by
    funext a
    rw [Aging_Model.d_T_cal, show ([a] : List ℝ).getD 0 0 = a from rfl]
    ring
  rw [hrw]
  have h1 : HasDerivAt (fun a : ℝ => -a * ((1 / T) - (1 / m.Tref)))
      (-1 * ((1 / T) - (1 / m.Tref))) θ1 :=
    (hasDerivAt_id' θ1).neg.mul_const _
  have h2 := (h1.exp).const_mul
    (m.x_ref_cal θ2 * m.d_SoC_cal SoC [θ0] * (ti * (24 * 3600)) ^ θ2)
  have hval : -(m.x_ref_cal θ2 * m.d_SoC_cal SoC [θ0] * m.d_T_cal T [θ1]
      * (ti * (24 * 3600)) ^ θ2) * ((1 / T) - (1 / m.Tref))
      = (m.x_ref_cal θ2 * m.d_SoC_cal SoC [θ0] * (ti * (24 * 3600)) ^ θ2)
          * (Real.exp (-θ1 * ((1 / T) - (1 / m.Tref)))
            * (-1 * ((1 / T) - (1 / m.Tref)))) := by
    rw [Aging_Model.d_T_cal, show ([θ1] : List ℝ).getD 0 0 = θ1 from rfl]
    ring
  rw [hval]
  exact h2

theorem hasDerivAt_calendar_theta2 (m : Aging_Model) (θ0 θ1 SoC T ti θ2 : ℝ)
    (hK : 0 < m.t_end * (24 * 3600)) (hL : 0 < ti * (24 * 3600)) :
    HasDerivAt
      (fun a => m.x_ref_cal a * m.d_SoC_cal SoC [θ0] * m.d_T_cal T [θ1]
        * (ti * (24 * 3600)) ^ a)
      (-(m.x_ref_cal θ2 * m.d_SoC_cal SoC [θ0] * m.d_T_cal T [θ1]
        * (ti * (24 * 3600)) ^ θ2)
        * (Real.log (m.t_end * (24 * 3600)) - Real.log (ti * (24 * 3600)))) θ2 := by
  have hrw : (fun a => m.x_ref_cal a * m.d_SoC_cal SoC [θ0] * m.d_T_cal T [θ1]
      * (ti * (24 * 3600)) ^ a)
      = fun a => ((1 - m.EOL_C) * m.d_SoC_cal SoC [θ0] * m.d_T_cal T [θ1])
          * Real.exp ((Real.log (ti * (24 * 3600)) - Real.log (m.t_end * (24 * 3600))) * a) := by
    funext a
    rw [Aging_Model.x_ref_cal, Real.rpow_def_of_pos hK, Real.rpow_def_of_pos hL,
      sub_mul (Real.log (ti * (24 * 3600))) (Real.log (m.t_end * (24 * 3600))) a,
      Real.exp_sub]
    field_simp
  rw [hrw]
  have h1 : HasDerivAt
      (fun a : ℝ => (Real.log (ti * (24 * 3600)) - Real.log (m.t_end * (24 * 3600))) * a)
      ((Real.log (ti * (24 * 3600)) - Real.log (m.t_end * (24 * 3600))) * 1) θ2 :=
    (hasDerivAt_id' θ2).const_mul _
  have h2 := (h1.exp).const_mul ((1 - m.EOL_C) * m.d_SoC_cal SoC [θ0] * m.d_T_cal T [θ1])
  have hval : -(m.x_ref_cal θ2 * m.d_SoC_cal SoC [θ0] * m.d_T_cal T [θ1]
      * (ti * (24 * 3600)) ^ θ2)
      * (Real.log (m.t_end * (24 * 3600)) - Real.log (ti * (24 * 3600)))
      = ((1 - m.EOL_C) * m.d_SoC_cal SoC [θ0] * m.d_T_cal T [θ1])
          * (Real.exp ((Real.log (ti * (24 * 3600)) - Real.log (m.t_end * (24 * 3600))) * θ2)
            * ((Real.log (ti * (24 * 3600)) - Real.log (m.t_end * (24 * 3600))) * 1)) := by
    rw [Aging_Model.x_ref_cal, Real.rpow_def_of_pos hK, Real.rpow_def_of_pos hL,
      sub_mul (Real.log (ti * (24 * 3600))) (Real.log (m.t_end * (24 * 3600))) θ2,
      Real.exp_sub]
    field_simp
    ring
  rw [hval]
  exact h2

theorem default_t_getD_pos {i : ℕ} (hi : i < 6) :
    0 < (Aging_Model.default.t).getD i 0 := by
  interval_cases i <;> norm_num [Aging_Model.default]

/-- C1: for each parameter index in `{0, 1, 2}`, with `theta[0] ≠ 0`,
`x[0] > 0`, `x[1] > 0`, every component of the vector returned by
`Aging_Model.partial_derivative_Calendar_Aging` (as used by
`AgingModel.partial_derivative`) is the true mathematical partial derivative of
the corresponding component of `Calendar_Aging(theta, x)` with respect to
`theta[index]`. -/
theorem aging_partial_derivatives_match_true_derivatives
    (θ0 θ1 θ2 SoC T : ℝ) (rest : List ℝ) (i : ℕ)
    (hi : i < (Aging_Model.default.t).length)
    (h0 : θ0 ≠ 0) (hS : 0 < SoC) (hT : 0 < T) :
    HasDerivAt
      (fun a => (Aging_Model.default.Calendar_Aging [a, θ1, θ2] (SoC :: T :: rest)).getD i 0)
      (((Aging_Model.default.partial_derivative_Calendar_Aging [θ0, θ1, θ2]
          (SoC :: T :: rest) 0).getD []).getD i 0) θ0
    ∧ HasDerivAt
      (fun a => (Aging_Model.default.Calendar_Aging [θ0, a, θ2] (SoC :: T :: rest)).getD i 0)
      (((Aging_Model.default.partial_derivative_Calendar_Aging [θ0, θ1, θ2]
          (SoC :: T :: rest) 1).getD []).getD i 0) θ1
    ∧ HasDerivAt
      (fun a => (Aging_Model.default.Calendar_Aging [θ0, θ1, a] (SoC :: T :: rest)).getD i 0)
      (((Aging_Model.default.partial_derivative_Calendar_Aging [θ0, θ1, θ2]
          (SoC :: T :: rest) 2).getD []).getD i 0) θ2 := by
  have hi6 : i < 6 := by
    simpa [Aging_Model.default] using hi
  have hb : 0 < SoC / Aging_Model.default.SoCref := by
    rw [show Aging_Model.default.SoCref = 0.5 from rfl]
    positivity
  have hK : 0 < Aging_Model.default.t_end * (24 * 3600) := by
    rw [show Aging_Model.default.t_end = 520 from rfl]
    norm_num
  have hL : 0 < (Aging_Model.default.t).getD i 0 * (24 * 3600) := by
    have := default_t_getD_pos hi6
    positivity
  refine ⟨?_, ?_, ?_⟩
  · have hf : (fun a => (Aging_Model.default.Calendar_Aging [a, θ1, θ2]
        (SoC :: T :: rest)).getD i 0)
        = fun a => Aging_Model.default.x_ref_cal θ2 * Aging_Model.default.d_SoC_cal SoC [a]
            * Aging_Model.default.d_T_cal T [θ1]
            * ((Aging_Model.default.t).getD i 0 * (24 * 3600)) ^ θ2 := by
      interval_cases i <;> rfl
    have hv : ((Aging_Model.default.partial_derivative_Calendar_Aging [θ0, θ1, θ2]
        (SoC :: T :: rest) 0).getD []).getD i 0
        = -(Aging_Model.default.x_ref_cal θ2 * Aging_Model.default.d_SoC_cal SoC [θ0]
            * Aging_Model.default.d_T_cal T [θ1]
            * ((Aging_Model.default.t).getD i 0 * (24 * 3600)) ^ θ2)
          * Real.log (SoC / Aging_Model.default.SoCref) / θ0 ^ 2 := by
      interval_cases i <;> rfl
    rw [hf, hv]
    exact hasDerivAt_calendar_theta0 Aging_Model.default θ1 θ2 SoC T _ θ0 h0 hb
  · have hf : (fun a => (Aging_Model.default.Calendar_Aging [θ0, a, θ2]
        (SoC :: T :: rest)).getD i 0)
        = fun a => Aging_Model.default.x_ref_cal θ2 * Aging_Model.default.d_SoC_cal SoC [θ0]
            * Aging_Model.default.d_T_cal T [a]
            * ((Aging_Model.default.t).getD i 0 * (24 * 3600)) ^ θ2 := by
      interval_cases i <;> rfl
    have hv : ((Aging_Model.default.partial_derivative_Calendar_Aging [θ0, θ1, θ2]
        (SoC :: T :: rest) 1).getD []).getD i 0
        = -(Aging_Model.default.x_ref_cal θ2 * Aging_Model.default.d_SoC_cal SoC [θ0]
            * Aging_Model.default.d_T_cal T [θ1]
            * ((Aging_Model.default.t).getD i 0 * (24 * 3600)) ^ θ2)
          * ((1 / T) - (1 / Aging_Model.default.Tref)) := by
      interval_cases i <;> rfl
    rw [hf, hv]
    exact hasDerivAt_calendar_theta1 Aging_Model.default θ0 θ2 SoC T _ θ1
  · have hf : (fun a => (Aging_Model.default.Calendar_Aging [θ0, θ1, a]
        (SoC :: T :: rest)).getD i 0)
        = fun a => Aging_Model.default.x_ref_cal a * Aging_Model.default.d_SoC_cal SoC [θ0]
            * Aging_Model.default.d_T_cal T [θ1]
            * ((Aging_Model.default.t).getD i 0 * (24 * 3600)) ^ a := by
      interval_cases i <;> rfl
    have hv : ((Aging_Model.default.partial_derivative_Calendar_Aging [θ0, θ1, θ2]
        (SoC :: T :: rest) 2).getD []).getD i 0
        = -(Aging_Model.default.x_ref_cal θ2 * Aging_Model.default.d_SoC_cal SoC [θ0]
            * Aging_Model.default.d_T_cal T [θ1]
            * ((Aging_Model.default.t).getD i 0 * (24 * 3600)) ^ θ2)
          * (Real.log (Aging_Model.default.t_end * (24 * 3600))
            - Real.log ((Aging_Model.default.t).getD i 0 * (24 * 3600))) := by
      interval_cases i <;> rfl
    rw [hf, hv]
    exact hasDerivAt_calendar_theta2 Aging_Model.default θ0 θ1 SoC T _ θ2 hK hL

/-- Witness for C1 at `theta = [1, 0, 0]`, `x = [1, 1]`, component `0`. -/
theorem aging_partial_derivatives_match_true_derivatives_witness :
    ((1 : ℝ) ≠ 0) ∧ (0 < (1 : ℝ)) ∧ (0 < (Aging_Model.default.t).length)
      ∧ HasDerivAt
        (fun a => (Aging_Model.default.Calendar_Aging [a, 0, 0] [(1 : ℝ), 1]).getD 0 0)
        (((Aging_Model.default.partial_derivative_Calendar_Aging [1, 0, 0]
            [(1 : ℝ), 1] 0).getD []).getD 0 0) 1
      ∧ HasDerivAt
        (fun a => (Aging_Model.default.Calendar_Aging [1, a, 0] [(1 : ℝ), 1]).getD 0 0)
        (((Aging_Model.default.partial_derivative_Calendar_Aging [1, 0, 0]
            [(1 : ℝ), 1] 1).getD []).getD 0 0) 0
      ∧ HasDerivAt
        (fun a => (Aging_Model.default.Calendar_Aging [1, 0, a] [(1 : ℝ), 1]).getD 0 0)
        (((Aging_Model.default.partial_derivative_Calendar_Aging [1, 0, 0]
            [(1 : ℝ), 1] 2).getD []).getD 0 0) 0 := by
  have h := aging_partial_derivatives_match_true_derivatives 1 0 0 1 1 [] 0
    (by simp [Aging_Model.default]) one_ne_zero one_pos one_pos
  exact ⟨one_ne_zero, one_pos, by simp [Aging_Model.default], h.1, h.2.1, h.2.2⟩

end OedFcs

namespace OedFcs

theorem vecMulVec_psd_quadratic_form {d : Type} [Fintype d] (v x : d → ℝ) :
    Matrix.dotProduct x ((Matrix.vecMulVec v v).mulVec x)
      = (Matrix.dotProduct v x) * (Matrix.dotProduct v x) := by
  simp only [Matrix.dotProduct, Matrix.mulVec, Matrix.vecMulVec_apply]
  rw [Finset.sum_mul_sum]
  refine Finset.sum_congr rfl fun i _ => ?_
  rw [Finset.mul_sum]
  exact Finset.sum_congr rfl fun j _ => by ring

/-! ## Claim C3: appending design points cannot decrease the FIM determinant -/

theorem posSemidef_vecMulVec_self {d : Type} [Fintype d] (v : d → ℝ) :
    (Matrix.vecMulVec v v).PosSemidef := by
  constructor
  · ext i j
    simp [Matrix.conjTranspose_apply, Matrix.vecMulVec_apply, mul_comm]
  · intro x
    have hx : star x = x := funext fun i => star_trivial _
    rw [hx, vecMulVec_psd_quadratic_form v x]
    exact mul_self_nonneg _

theorem posSemidef_list_sum {d : Type} [Fintype d] (l : List (Matrix d d ℝ))
    (h : ∀ M ∈ l, M.PosSemidef) : l.sum.PosSemidef := by
  induction l with
  | nil => simpa using Matrix.PosSemidef.zero
  | cons M t ih =>
    rw [List.sum_cons]
    exact (h M (by simp)).add (ih fun N hN => h N (by simp [hN]))

theorem posSemidef_smul_of_nonneg {d : Type} [Fintype d] {c : ℝ} {M : Matrix d d ℝ}
    (hc : 0 ≤ c) (hM : M.PosSemidef) : (c • M).PosSemidef := by
  constructor
  · show (c • M).conjTranspose = c • M
    rw [Matrix.conjTranspose_smul, star_trivial, hM.1]
  · intro x
    rw [Matrix.smul_mulVec_assoc, Matrix.dotProduct_smul, smul_eq_mul]
    exact mul_nonneg hc (hM.2 x)

theorem calculate_fisher_information_matrix_posSemidef {k : ℕ}
    (sigma : ℝ) (pd : List ℝ → List ℝ → Fin k → ℝ) (theta : List ℝ)
    (x0 : List (List ℝ)) :
    (calculate_fisher_information_matrix sigma pd theta x0).PosSemidef := by
  refine posSemidef_smul_of_nonneg (by positivity) (posSemidef_list_sum _ ?_)
  intro M hM
  rw [List.mem_map] at hM
  obtain ⟨p, -, rfl⟩ := hM
  exact posSemidef_vecMulVec_self _

theorem calculate_fisher_information_matrix_append {k : ℕ}
    (sigma : ℝ) (pd : List ℝ → List ℝ → Fin k → ℝ) (theta : List ℝ)
    (a b : List (List ℝ)) :
    calculate_fisher_information_matrix sigma pd theta (a ++ b)
      = calculate_fisher_information_matrix sigma pd theta a
        + calculate_fisher_information_matrix sigma pd theta b := by
  unfold calculate_fisher_information_matrix
  rw [List.map_append, List.sum_append, smul_add]

theorem det_nonneg_of_posSemidef {d : ℕ} {A : Matrix (Fin d) (Fin d) ℝ}
    (hA : A.PosSemidef) : 0 ≤ A.det := by
  rw [hA.isHermitian.det_eq_prod_eigenvalues]
  refine Finset.prod_nonneg fun i _ => ?_
  simpa using hA.eigenvalues_nonneg i

theorem one_le_eigenvalues_of_sub_one_posSemidef {d : ℕ} {M : Matrix (Fin d) (Fin d) ℝ}
    (hM : M.IsHermitian) (h1 : (M - 1).PosSemidef) (i : Fin d) :
    1 ≤ hM.eigenvalues i := by
  set v : Fin d → ℝ := ⇑(hM.eigenvectorBasis i) with hv
  have hstar : star v = v := funext fun _ => star_trivial _
  have hv0 : v ≠ 0 := by
    intro h
    apply hM.eigenvectorBasis.orthonormal.ne_zero i
    ext j
    exact congrFun h j
  have hvvpos : 0 < Matrix.dotProduct v v := by
    rcases (Finset.sum_nonneg fun j _ =>
      mul_self_nonneg (v j)).lt_or_eq with hlt | heq
    · exact hlt
    · exfalso
      apply hv0
      funext j
      have := (Finset.sum_eq_zero_iff_of_nonneg
        (fun j _ => mul_self_nonneg (v j))).mp heq.symm j (Finset.mem_univ j)
      have hj := mul_self_eq_zero.mp this
      simp [hj]
  have key := h1.2 v
  rw [hstar, Matrix.sub_mulVec, Matrix.one_mulVec, Matrix.dotProduct_sub,
    hM.mulVec_eigenvectorBasis i, ← hv, Matrix.dotProduct_smul, smul_eq_mul] at key
  nlinarith [key, hvvpos]

theorem one_le_det_of_sub_one_posSemidef {d : ℕ} {M : Matrix (Fin d) (Fin d) ℝ}
    (hM : M.PosSemidef) (h1 : (M - 1).PosSemidef) : 1 ≤ M.det := by
  rw [hM.isHermitian.det_eq_prod_eigenvalues]
  have hone : ∀ i : Fin d, 1 ≤ hM.isHermitian.eigenvalues i :=
    one_le_eigenvalues_of_sub_one_posSemidef hM.isHermitian h1
  calc (1 : ℝ) = ∏ _i : Fin d, 1 := by simp
  _ ≤ ∏ i : Fin d, hM.isHermitian.eigenvalues i :=
    Finset.prod_le_prod (fun i _ => zero_le_one) (fun i _ => hone i)

theorem det_le_det_add_of_posSemidef {d : ℕ} {A B : Matrix (Fin d) (Fin d) ℝ}
    (hA : A.PosSemidef) (hB : B.PosSemidef) : A.det ≤ (A + B).det := by
  by_cases h0 : A.det = 0
  · rw [h0]
    exact det_nonneg_of_posSemidef (hA.add hB)
  · set S : Matrix (Fin d) (Fin d) ℝ := hA.sqrt with hSdef
    have hSS : S * S = A := hA.sqrt_mul_self
    have hdS : S.det ≠ 0 := by
      intro h
      apply h0
      rw [← hSS, Matrix.det_mul, h, mul_zero]
    have hU : IsUnit S.det := isUnit_iff_ne_zero.mpr hdS
    have hSinv : S * S⁻¹ = 1 := Matrix.mul_nonsing_inv S hU
    have hinvS : S⁻¹ * S = 1 := Matrix.nonsing_inv_mul S hU
    set C : Matrix (Fin d) (Fin d) ℝ := S⁻¹ * B * S⁻¹ with hCdef
    have hC : C.PosSemidef := by
      have hherm : (S⁻¹).conjTranspose = S⁻¹ := by
        rw [Matrix.conjTranspose_nonsing_inv, hA.posSemidef_sqrt.isHermitian]
      have := hB.conjTranspose_mul_mul_same (B := S⁻¹)
      rwa [hherm] at this
    have hmid : S * C * S = B := by
      have hassoc : S * C * S = (S * S⁻¹) * B * (S⁻¹ * S) := by
        rw [hCdef]
        noncomm_ring
      rw [hassoc, hSinv, hinvS, one_mul, mul_one]
    have key : A + B = S * (1 + C) * S := by
      rw [mul_add, mul_one, add_mul, hSS, hmid]
    have h1C : (1 + C).PosSemidef := Matrix.PosSemidef.one.add hC
    have hdet1C : 1 ≤ (1 + C).det :=
      one_le_det_of_sub_one_posSemidef h1C (by rwa [add_sub_cancel_left])
    have hAdet : 0 < A.det :=
      lt_of_le_of_ne (det_nonneg_of_posSemidef hA) (Ne.symm h0)
    rw [key, Matrix.det_mul, Matrix.det_mul]
    calc A.det = A.det * 1 := (mul_one _).symm
    _ ≤ A.det * (1 + C).det := mul_le_mul_of_nonneg_left hdet1C hAdet.le
    _ = S.det * (1 + C).det * S.det := by
      rw [← hSS, Matrix.det_mul]
      ring

/-- C3: the design built by `DDesign` (previous rows plus any optimized new
rows) has a Fisher-information determinant at the fixed theta that is no
smaller than that of the previous experiment alone, because the FIM is a sum
of positive-semidefinite rank-one contributions over design points. This
holds for every minimizer output, in particular for well-conditioned
problems. -/
theorem ddesign_det_fim_monotone {k : ℕ}
    (sigma : ℝ) (pd : List ℝ → List ℝ → Fin k → ℝ)
    (number_designs : ℕ) (lb ub initial_theta : List ℝ)
    (minimizer : Minimizer ℝ) (e : Experiment ℝ) :
    calculate_determinant_fisher_information_matrix sigma pd initial_theta e.experiment
      ≤ calculate_determinant_fisher_information_matrix sigma pd initial_theta
          (DDesign_design number_designs lb ub initial_theta
            (calculate_determinant_fisher_information_matrix sigma pd)
            minimizer e.experiment) := by
  rw [DDesign_design]
  unfold calculate_determinant_fisher_information_matrix
  rw [calculate_fisher_information_matrix_append]
  exact det_le_det_add_of_posSemidef
    (calculate_fisher_information_matrix_posSemidef sigma pd initial_theta _)
    (calculate_fisher_information_matrix_posSemidef sigma pd initial_theta _)

end OedFcs
